import Mathlib

/-!
Verification of the CihVeilleIA hybrid retrieval-augmented search core and of
its caller-facing API client.

The first part shallowly embeds the TypeScript API client
(`lib/api.ts`, the full variant with auth/retry handling): the auth token
store, the response-handling phase of `fetchWithTimeout`, the retry loop
`fetchWithRetry`, and the request constructors `api.search` /
`api.askChatbot`.

The second part models the retrieval core (chunker, vector index, hybrid
fusion, reranker fallback, answer synthesizer, metadata-consistency state
machine) from the specification, since that subsystem's Python sources are
not part of this repository snapshot; each such definition carries a
`Modelled from the spec` doc comment.
-/

namespace CihVeille

/-! ## Part A: API client (embedded from the source) -/

/-- Embedded from the source `ApiErrorType` enum. -/
inductive ApiErrorType where
  | network
  | timeoutErr
  | http
  | parse
  | unknown
deriving DecidableEq, Repr

/-- Embedded from the source `ApiError` class: type, message and
optional HTTP status code (`statusCode?: number`). -/
structure ApiError where
  type : ApiErrorType
  message : String
  statusCode : Option Nat
deriving DecidableEq, Repr

/-- Client-side persistent state: the auth token kept in localStorage under
`cih_veille_auth_token` (`none` models an absent key). -/
structure ClientState where
  token : Option String
deriving DecidableEq, Repr

/-- Embedded from `auth.getToken`: read the stored token. -/
def getToken (s : ClientState) : Option String := s.token

/-- Embedded from `auth.setToken`. -/
def setToken (t : String) (_s : ClientState) : ClientState := ⟨some t⟩

/-- Embedded from `auth.clearToken`: remove the stored token. -/
def clearToken (_s : ClientState) : ClientState := ⟨none⟩

/-- Embedded from `fetchWithTimeout`: `resource.startsWith('/') ? resource :
`/${resource}``-style normalization of the request path (the one-character
`startsWith('/')` test is expressed on the underlying character list so
that it evaluates). -/
def normalizePath (resource : String) : String :=
  if resource.data.head? = some (Char.ofNat 47) then resource
  else "/" ++ resource

/-- An HTTP response as observed by the client after the network phase:
status code, the parsed JSON payload when the body parses (`none` models a
parse failure), and the optional `detail` field of an error body. -/
structure HttpResponse where
  status : Nat
  jsonBody : Option String
  errorDetail : Option String
deriving DecidableEq, Repr

/-- The `response.ok` predicate of the Fetch API: status in 200..299. -/
def responseOk (status : Nat) : Bool :=
  decide (200 ≤ status) && decide (status < 300)

/-- Error message chosen by `fetchWithTimeout` for a non-OK response: the
body's `detail` field when present, the default `HTTP <status>` otherwise. -/
def errorMessageOf (resp : HttpResponse) : String :=
  match resp.errorDetail with
  | some d => d
  | none => "HTTP " ++ toString resp.status

/-- Embedded from `fetchWithTimeout` (response-handling phase; the network
call itself, the abort timer and the redirect to `/login` are outside the
model, so the function takes the observed response as input).  On a 401 off
the `/token` path it clears the stored token and throws an HTTP 401
`ApiError`; on any other non-OK status it throws an HTTP `ApiError`
carrying that status; otherwise it returns the parsed JSON body, or throws
a PARSE `ApiError` when the body does not parse. -/
def fetchWithTimeout (resource : String) (resp : HttpResponse) (s : ClientState) :
    ClientState × Except ApiError String :=
  let path := normalizePath resource
  if resp.status = 401 ∧ path ≠ "/token" then
    (clearToken s,
     .error ⟨.http, "Session expired. Please log in again.", some 401⟩)
  else if responseOk resp.status = false then
    (s, .error ⟨.http, errorMessageOf resp, some resp.status⟩)
  else
    match resp.jsonBody with
    | some data => (s, .ok data)
    | none => (s, .error ⟨.parse, "Failed to parse JSON response", some resp.status⟩)

/-- Embedded from the 4xx test in `fetchWithRetry`:
`lastError.statusCode && lastError.statusCode >= 400 && lastError.statusCode < 500`
(an absent status code is falsy, so it never matches). -/
def is4xxClientError (e : ApiError) : Bool :=
  match e.statusCode with
  | some s => decide (400 ≤ s) && decide (s < 500)
  | none => false

/-- Trace of one `fetchWithRetry` run: its outcome, the number of fetch
attempts performed, and the backoff sleeps performed (in milliseconds, in
order). -/
structure RetryTrace (α : Type) where
  result : Except ApiError α
  attempts : Nat
  delays : List Nat
deriving Repr

/-- Embedded from the loop body of `fetchWithRetry`.  `f n` is the outcome
of the n-th fetch attempt (n counted from 0).  A successful attempt
returns; a failure with a 4xx status is rethrown at once; on the last
allowed attempt (`attempt === maxRetries`; stated as `maxRetries ≤ attempt`
for termination, equivalent since attempts start at 0 and increase by 1)
the last error is rethrown; otherwise the loop sleeps
`Math.pow(2, attempt - 1) * 1000` ms at the top of the next iteration —
recorded here at the call site as `2 ^ attempt * 1000` for the upcoming
attempt `attempt + 1` — and retries. -/
def retryLoop (f : Nat → Except ApiError α) (maxRetries : Nat) (attempt : Nat) :
    RetryTrace α :=
  match f attempt with
  | .ok v => ⟨.ok v, 1, []⟩
  | .error e =>
    if is4xxClientError e then ⟨.error e, 1, []⟩
    else if maxRetries ≤ attempt then ⟨.error e, 1, []⟩
    else
      let rest := retryLoop f maxRetries (attempt + 1)
      ⟨rest.result, rest.attempts + 1, 2 ^ attempt * 1000 :: rest.delays⟩
termination_by maxRetries - attempt

/-- Embedded from `fetchWithRetry`: run the retry loop from attempt 0. -/
def fetchWithRetry (f : Nat → Except ApiError α) (maxRetries : Nat) : RetryTrace α :=
  retryLoop f maxRetries 0

/-- An outgoing request as built by the `api` methods: path, HTTP method,
and the fields of the JSON body. -/
structure ApiRequest where
  path : String
  method : String
  bodyFields : List (String × String)
deriving DecidableEq, Repr

/-- Embedded from `api.search`: POST `{ question }` to `/search`. -/
def searchRequest (question : String) : ApiRequest :=
  ⟨"/search", "POST", [("question", question)]⟩

/-- Embedded from `api.askChatbot`: POST `{ question }` to `/chatbot/ask`. -/
def askChatbotRequest (question : String) : ApiRequest :=
  ⟨"/chatbot/ask", "POST", [("question", question)]⟩

/-- A source item of the chatbot response, as consumed by
`handleSendMessage` (`s.title || s.url`). -/
structure ChatSource where
  title : Option String
  url : Option String
deriving DecidableEq, Repr

/-- The chatbot response shape consumed by `handleSendMessage`: an `answer`
string and a `sources` array. -/
structure ChatAskResponse where
  answer : String
  sources : List ChatSource
deriving DecidableEq, Repr

/-- Embedded from `data.sources.map((s) => s.title || s.url)`. -/
def sourceLabel (s : ChatSource) : Option String :=
  s.title.orElse (fun _ => s.url)

/-- Embedded from `handleSendMessage`: the assistant message built from the
chatbot response uses `data.answer` as content and the source labels. -/
def assistantMessage (r : ChatAskResponse) : String × List (Option String) :=
  (r.answer, r.sources.map sourceLabel)

/-! ## Part B: retrieval core, modelled from the specification -/

/-- Modelled from the spec (§4.4, data model §3 SearchCandidate): one entry
of a single branch's result list, a chunk id with that branch's raw score. -/
structure BranchResult where
  chunkId : String
  score : ℚ
deriving DecidableEq, Repr

/-- Minimum of a list of rationals (0 on the empty list; only used on the
score list of a non-empty candidate set). -/
def listMin : List ℚ → ℚ
  | [] => 0
  | x :: xs => xs.foldl min x

/-- Maximum of a list of rationals (0 on the empty list). -/
def listMax : List ℚ → ℚ
  | [] => 0
  | x :: xs => xs.foldl max x

/-- Raw scores of one branch's result list. -/
def scoresOf (rs : List BranchResult) : List ℚ := rs.map (·.score)

/-- Modelled from the spec (§4.4 step 4): min-max normalization of a score
within one branch's candidate set, mapping the set onto [0,1]; when all
scores coincide the branch carries no ranking signal and the normalized
score is taken to be 1. -/
def minMaxNorm (rs : List BranchResult) (x : ℚ) : ℚ :=
  let lo := listMin (scoresOf rs)
  let hi := listMax (scoresOf rs)
  if hi = lo then 1 else (x - lo) / (hi - lo)

/-- Raw score of a chunk in one branch's result list, when present. -/
def lookupScore (rs : List BranchResult) (c : String) : Option ℚ :=
  (rs.find? (fun r => r.chunkId = c)).map (·.score)

/-- Modelled from the spec (§4.4 steps 3-4): the normalized score a chunk
contributes from one branch — its min-max-normalized score when the branch
returned it, the default 0 when it is missing from the branch. -/
def branchNorm (rs : List BranchResult) (c : String) : ℚ :=
  match lookupScore rs c with
  | some x => minMaxNorm rs x
  | none => 0

/-- Modelled from the spec (§4.4 step 5): the configurable dense weight,
"default favoring dense"; the lexical branch gets the complementary
weight. -/
def defaultDenseWeight : ℚ := 7 / 10

/-- Modelled from the spec (§3): an ephemeral fused candidate with both
normalized branch scores and the fused score. -/
structure FusedCandidate where
  chunkId : String
  denseNorm : ℚ
  lexNorm : ℚ
  fusedScore : ℚ
deriving DecidableEq, Repr

/-- Union of the chunk ids of the two branches, first occurrence kept
(§4.4 step 3: fuse by chunk_id union, no duplicate chunk_ids). -/
def candidateIds (dense lex : List BranchResult) : List String :=
  ((dense ++ lex).map (·.chunkId)).eraseDups

/-- Modelled from the spec (§4.4 steps 3-5): fuse the two branches —
chunk_id union, missing branch defaulted to 0, each branch min-max
normalized, fused score the weighted sum
`w * denseNorm + (1 - w) * lexNorm`. -/
def fuseCandidates (w : ℚ) (dense lex : List BranchResult) : List FusedCandidate :=
  (candidateIds dense lex).map (fun c =>
    let dn := branchNorm dense c
    let ln := branchNorm lex c
    ⟨c, dn, ln, w * dn + (1 - w) * ln⟩)

/-- Modelled from the spec (§4.1, §7): the chunker error, raised only on
empty/unreadable input. -/
inductive ChunkingError where
  | emptyInput
deriving DecidableEq, Repr

/-- Modelled from the spec (§4.1): split a token sequence into chunks of at
most `maxTokens` tokens with `overlap` tokens of duplicated boundary
content between consecutive chunks: each next chunk starts
`maxTokens - overlap` tokens after the previous one.  (The `max 1` guard
only matters for the degenerate configuration `overlap ≥ maxTokens`, which
§4.1 excludes; it makes the recursion total.) -/
def chunkTokens (maxTokens overlap : Nat) (toks : List String) : List (List String) :=
  if toks.length ≤ maxTokens then [toks]
  else
    toks.take maxTokens ::
      chunkTokens maxTokens overlap (toks.drop (max 1 (maxTokens - overlap)))
termination_by toks.length
decreasing_by
  simp only [List.length_drop]
  omega

/-- Modelled from the spec (§4.1): the chunker contract — fail with
`ChunkingError` on empty input, otherwise chunk the token sequence. -/
def chunkDocument (maxTokens overlap : Nat) (toks : List String) :
    Except ChunkingError (List (List String)) :=
  if toks.isEmpty then .error .emptyInput
  else .ok (chunkTokens maxTokens overlap toks)

/-- Reassembly of a chunk sequence whose consecutive chunks duplicate
boundary content: keep only the first `step` tokens of every chunk but the
last (`step = maxTokens - overlap`), i.e. the non-overlapping spans, and
concatenate (§4.1: "the concatenation of non-overlapping spans
reconstructs the source text"). -/
def reconstruct (step : Nat) : List (List String) → List String
  | [] => []
  | [c] => c
  | c :: c2 :: rest => c.take step ++ reconstruct step (c2 :: rest)

/-- Modelled from the spec (§5): the per-chunk state recorded in the
Metadata Store row — `pending` (written, not yet visible), `indexed`
(fully ingested), `deleted` (tombstoned). -/
inductive ChunkStatus where
  | pending
  | indexed
  | deleted
deriving DecidableEq, Repr

/-- Modelled from the spec (§3 Metadata Store): the authoritative row for a
chunk id — owning document and lifecycle state. -/
structure MetaRow where
  docId : String
  status : ChunkStatus
deriving DecidableEq, Repr

/-- Modelled from the spec (§2, §5): the shared state of the retrieval
core — the Metadata Store (keyed by chunk id), and the chunk-id sets of the
Vector Index and the Lexical Index. -/
structure CoreState where
  store : List (String × MetaRow)
  vec : List String
  lex : List String
deriving DecidableEq, Repr

/-- Lookup of a chunk's row in the Metadata Store. -/
def lookupRow (rows : List (String × MetaRow)) (c : String) : Option MetaRow :=
  (rows.find? (fun r => r.1 = c)).map (·.2)

/-- Lifecycle state of a chunk, read from the Metadata Store. -/
def statusOf (s : CoreState) (c : String) : Option ChunkStatus :=
  (lookupRow s.store c).map (·.status)

/-- Flip the recorded state of chunk `c` in the Metadata Store. -/
def setStatus (rows : List (String × MetaRow)) (c : String) (st : ChunkStatus) :
    List (String × MetaRow) :=
  rows.map (fun r => if r.1 = c then (r.1, ⟨r.2.docId, st⟩) else r)

/-- Modelled from the spec (§5, write ordering): the atomic writes of the
INDEX and DELETE lifecycles.  On ingestion the Metadata Store row is
written first with state `pending`, then each index is updated, then the
row is flipped to `indexed` (only once both indexes hold the chunk); on
deletion the row is flipped to `deleted` first, then each index is
purged. -/
inductive Step : CoreState → CoreState → Prop
  | writeMetaPending (s : CoreState) (c doc : String)
      (h : lookupRow s.store c = none) :
      Step s ⟨(c, ⟨doc, .pending⟩) :: s.store, s.vec, s.lex⟩
  | insertVec (s : CoreState) (c : String)
      (h : statusOf s c = some .pending) :
      Step s ⟨s.store, c :: s.vec, s.lex⟩
  | insertLex (s : CoreState) (c : String)
      (h : statusOf s c = some .pending) :
      Step s ⟨s.store, s.vec, c :: s.lex⟩
  | markIndexed (s : CoreState) (c : String)
      (h : statusOf s c = some .pending) (hv : c ∈ s.vec) (hl : c ∈ s.lex) :
      Step s ⟨setStatus s.store c .indexed, s.vec, s.lex⟩
  | markDeleted (s : CoreState) (c : String) (row : MetaRow)
      (h : lookupRow s.store c = some row) :
      Step s ⟨setStatus s.store c .deleted, s.vec, s.lex⟩
  | purgeVec (s : CoreState) (c : String)
      (h : statusOf s c = some .deleted) :
      Step s ⟨s.store, s.vec.erase c, s.lex⟩
  | purgeLex (s : CoreState) (c : String)
      (h : statusOf s c = some .deleted) :
      Step s ⟨s.store, s.vec, s.lex.erase c⟩

/-- The empty initial state of the retrieval core. -/
def initState : CoreState := ⟨[], [], []⟩

/-- States reachable from the empty core by the write steps of §5. -/
inductive Reachable : CoreState → Prop
  | init : Reachable initState
  | step {s t : CoreState} : Reachable s → Step s t → Reachable t

/-- States reachable from a given state by further write steps (models
operations running concurrently with and after a deletion). -/
inductive ReachableFrom : CoreState → CoreState → Prop
  | refl (s : CoreState) : ReachableFrom s s
  | step {s t u : CoreState} : ReachableFrom s t → Step t u → ReachableFrom s u

/-- Modelled from the spec (§4.2/§4.3): whether a search call can return
chunk `c` in state `s` — the chunk is held by an index and is not filtered
out by its `deleted` tombstone ("Search never returns a chunk_id with
deleted=true in the Metadata Store"). -/
def searchVisible (s : CoreState) (c : String) : Bool :=
  (decide (c ∈ s.vec) || decide (c ∈ s.lex)) &&
    !(decide (statusOf s c = some .deleted))

/-- Statement of the literal §3 invariant under scrutiny: every chunk id
present in the Metadata Store with `deleted=false` is in both indexes, and
a chunk id absent from the store is in neither. -/
def literalInvariant (s : CoreState) : Prop :=
  (∀ c row, lookupRow s.store c = some row → row.status ≠ .deleted →
    c ∈ s.vec ∧ c ∈ s.lex) ∧
  (∀ c, lookupRow s.store c = none → c ∉ s.vec ∧ c ∉ s.lex)

/-- Modelled from the spec (§8 deletion consistency): `delete(document_id)`
has completed once every chunk row of that document is tombstoned. -/
def docDeleted (s : CoreState) (d : String) : Prop :=
  ∀ c row, lookupRow s.store c = some row → row.docId = d →
    row.status = .deleted

/-- Modelled from the spec (§4.2 upsert contract): the Vector Index as a
chunk-id-keyed association list; insert replaces the existing entry when
the chunk id is already present (last write wins), appends otherwise. -/
def upsert (c : String) (v : List ℚ) : List (String × List ℚ) → List (String × List ℚ)
  | [] => [(c, v)]
  | e :: rest => if e.1 = c then (c, v) :: rest else e :: upsert c v rest

/-- Lookup of a chunk's vector in the index. -/
def lookupVec (idx : List (String × List ℚ)) (c : String) : Option (List ℚ) :=
  (idx.find? (fun e => e.1 = c)).map (·.2)

/-- Insert a batch of (chunk id, vector) entries, in order, by upsert. -/
def insertAll (es : List (String × List ℚ)) (idx : List (String × List ℚ)) :
    List (String × List ℚ) :=
  es.foldl (fun m e => upsert e.1 e.2 m) idx

/-- Last binding of a chunk id within a batch of entries (last write
wins). -/
def lastBinding (c : String) : List (String × List ℚ) → Option (List ℚ)
  | [] => none
  | e :: rest =>
    match lastBinding c rest with
    | some v => some v
    | none => if e.1 = c then some e.2 else none

/-- Modelled from the spec (§4.7 INDEX lifecycle): the (chunk id, vector)
entries produced for a document — chunk ids `document_id + sequence index`
(§3), vectors produced by the Embedding Gateway from the chunk text. -/
def chunkEntries (embed : List String → List ℚ) (docId : String)
    (chunks : List (List String)) : List (String × List ℚ) :=
  chunks.enum.map (fun p => (docId ++ "#" ++ toString p.1, embed p.2))

/-- Modelled from the spec (§4.7 INDEX lifecycle): ingest a document into
the vector index — chunk, embed each chunk, insert every entry by
upsert. -/
def ingestDocument (embed : List String → List ℚ) (maxTokens overlap : Nat)
    (docId : String) (toks : List String) (idx : List (String × List ℚ)) :
    List (String × List ℚ) :=
  insertAll (chunkEntries embed docId (chunkTokens maxTokens overlap toks)) idx

/-- Modelled from the spec (§6): the outcome of a call to an external
gateway, which may be unavailable. -/
inductive GatewayResult (α : Type) where
  | ok (val : α)
  | unavailable
deriving DecidableEq, Repr

/-- Modelled from the spec (§3): an ephemeral ranked passage flowing
through the ASK pipeline (the document id is carried along for citation
construction). -/
structure RankedPassage where
  chunkId : String
  docId : String
  text : List String
  fusedScore : ℚ
deriving DecidableEq, Repr

/-- Token count of a passage (its text is modelled as a token list). -/
def passageTokens (p : RankedPassage) : Nat := p.text.length

/-- Insertion of a scored passage into a list sorted by descending rerank
score. -/
def insertByScore (x : RankedPassage × ℚ) :
    List (RankedPassage × ℚ) → List (RankedPassage × ℚ)
  | [] => [x]
  | y :: rest => if y.2 ≤ x.2 then x :: y :: rest else y :: insertByScore x rest

/-- Re-sort passages by the rerank scores returned by the gateway (aligned
by input order, §6), descending. -/
def applyRerank (passages : List RankedPassage) (scores : List ℚ) :
    List RankedPassage :=
  ((passages.zip scores).foldr insertByScore []).map (·.1)

/-- Modelled from the spec (§4.5): invoke the Reranker Gateway on the fused
candidate list; when it is unavailable fall back to the fusion-ordered list
unmodified and flag the response `reranked=false`. -/
def rerankStage (gateway : String → List RankedPassage → GatewayResult (List ℚ))
    (q : String) (fused : List RankedPassage) : List RankedPassage × Bool :=
  match gateway q fused with
  | .ok scores => (applyRerank fused scores, true)
  | .unavailable => (fused, false)

/-- Modelled from the spec (§4.6): greedy context packing — walk the ranked
passages highest-ranked first, keep each passage that still fits the token
budget, skip passages that would overflow it; returns the packed passages
and the tokens used. -/
def packContext (budget : Nat) (ranked : List RankedPassage) :
    List RankedPassage × Nat :=
  ranked.foldl
    (fun acc p =>
      if acc.2 + passageTokens p ≤ budget then (acc.1 ++ [p], acc.2 + passageTokens p)
      else acc)
    ([], 0)

/-- Modelled from the spec (§3): a citation attached to a synthesized
answer. -/
structure Citation where
  chunkId : String
  docId : String
deriving DecidableEq, Repr

/-- Citation built for a passage that was packed into the context. -/
def mkCitation (p : RankedPassage) : Citation := ⟨p.chunkId, p.docId⟩

/-- Modelled from the spec (§4.6, §7): the context-overflow failure of one
ASK call, raised when zero passages fit the budget. -/
inductive AskFailure where
  | contextOverflow
deriving DecidableEq, Repr

/-- Modelled from the spec (§6 query boundary): the response of `ask` —
optional synthesized answer, the ranked passages, the citations of the
passages actually used in the context, and the degraded-mode flags. -/
structure AskResult where
  answer : Option String
  passages : List RankedPassage
  citations : List Citation
  reranked : Bool
  synthesized : Bool
deriving DecidableEq, Repr

/-- Modelled from the spec (§4.5-§4.7 ASK lifecycle, downstream of the
hybrid-search stage whose output is the fusion-ordered list `fused`):
rerank (degrading to the fusion order when the Reranker Gateway is
unavailable), pack the context greedily under the token budget, fail with
`ContextOverflowError` when zero passages fit, otherwise invoke the
Generation Gateway (degrading to a citation-bearing search response when it
is unavailable) and attach one citation per packed passage. -/
def askPipeline (rerankG : String → List RankedPassage → GatewayResult (List ℚ))
    (genG : String → List RankedPassage → GatewayResult String)
    (budget : Nat) (q : String) (fused : List RankedPassage) :
    Except AskFailure AskResult :=
  let stage := rerankStage rerankG q fused
  let packed := (packContext budget stage.1).1
  if packed.isEmpty then .error .contextOverflow
  else
    match genG q packed with
    | .ok ans => .ok ⟨some ans, stage.1, packed.map mkCitation, stage.2, true⟩
    | .unavailable => .ok ⟨none, stage.1, packed.map mkCitation, stage.2, false⟩

/-! ## Helper lemmas for the retry loop -/

theorem retryLoop_ok {f : Nat → Except ApiError α} {m a : Nat} {v : α}
    (h : f a = .ok v) : retryLoop f m a = ⟨.ok v, 1, []⟩ := by
  rw [retryLoop, h]

theorem retryLoop_err4xx {f : Nat → Except ApiError α} {m a : Nat} {e : ApiError}
    (h : f a = .error e) (h4 : is4xxClientError e = true) :
    retryLoop f m a = ⟨.error e, 1, []⟩ := by
  rw [retryLoop, h]
  simp [h4]

theorem retryLoop_last {f : Nat → Except ApiError α} {m a : Nat} {e : ApiError}
    (h : f a = .error e) (h4 : is4xxClientError e = false) (hm : m ≤ a) :
    retryLoop f m a = ⟨.error e, 1, []⟩ := by
  rw [retryLoop, h]
  simp [h4, hm]

theorem retryLoop_next {f : Nat → Except ApiError α} {m a : Nat} {e : ApiError}
    (h : f a = .error e) (h4 : is4xxClientError e = false) (hm : ¬ m ≤ a) :
    retryLoop f m a =
      ⟨(retryLoop f m (a + 1)).result, (retryLoop f m (a + 1)).attempts + 1,
       2 ^ a * 1000 :: (retryLoop f m (a + 1)).delays⟩ := by
  rw [retryLoop, h]
  simp [h4, hm]

theorem retryLoop_attempts_pos (f : Nat → Except ApiError α) (m a : Nat) :
    1 ≤ (retryLoop f m a).attempts := by
  rw [retryLoop]
  rcases hfa : f a with v | e <;> simp
  split
  · simp
  · split <;> simp

theorem retryLoop_attempts_le (f : Nat → Except ApiError α) (m a : Nat)
    (ha : a ≤ m) :
    (retryLoop f m a).attempts ≤ m + 1 - a := by
  rcases hfa : f a with e | v
  · rcases h4 : is4xxClientError e with _ | _
    · by_cases hm : m ≤ a
      · rw [retryLoop_last hfa h4 hm]
        dsimp only
        omega
      · rw [retryLoop_next hfa h4 hm]
        have ih := retryLoop_attempts_le f m (a + 1) (by omega)
        dsimp only
        omega
    · rw [retryLoop_err4xx hfa h4]
      dsimp only
      omega
  · rw [retryLoop_ok hfa]
    dsimp only
    omega
termination_by m + 1 - a
decreasing_by omega

theorem retryLoop_delays (f : Nat → Except ApiError α) (m a : Nat) :
    (retryLoop f m a).delays =
      (List.range ((retryLoop f m a).attempts - 1)).map
        (fun i => 2 ^ (a + i) * 1000) := by
  rcases hfa : f a with e | v
  · rcases h4 : is4xxClientError e with _ | _
    · by_cases hm : m ≤ a
      · rw [retryLoop_last hfa h4 hm]
        simp
      · rw [retryLoop_next hfa h4 hm]
        have ih := retryLoop_delays f m (a + 1)
        have hpos := retryLoop_attempts_pos f m (a + 1)
        dsimp only
        obtain ⟨k, hk⟩ : ∃ k, (retryLoop f m (a + 1)).attempts = k + 1 :=
          ⟨(retryLoop f m (a + 1)).attempts - 1, by omega⟩
        rw [ih, hk]
        simp only [Nat.add_sub_cancel, List.range_succ_eq_map, List.map_cons,
          List.map_map, List.cons.injEq]
        refine ⟨by simp, ?_⟩
        apply List.map_congr_left
        intro i _
        simp only [Function.comp_apply]
        congr 2
        omega
    · rw [retryLoop_err4xx hfa h4]
      simp
  · rw [retryLoop_ok hfa]
    simp
termination_by m + 1 - a
decreasing_by omega

theorem retryLoop_all_fail (f : Nat → Except ApiError α) (m : Nat)
    (hfail : ∀ n, n ≤ m → ∃ e, f n = .error e ∧ is4xxClientError e = false)
    (a : Nat) (ha : a ≤ m) :
    (retryLoop f m a).result = f m ∧
    (retryLoop f m a).attempts = m + 1 - a := by
  obtain ⟨e, hfa, h4⟩ := hfail a ha
  by_cases hm : m ≤ a
  · have haeq : a = m := le_antisymm ha hm
    subst haeq
    rw [retryLoop_last hfa h4 hm]
    refine ⟨hfa.symm, ?_⟩
    dsimp only
    omega
  · rw [retryLoop_next hfa h4 hm]
    have ih := retryLoop_all_fail f m hfail (a + 1) (by omega)
    refine ⟨ih.1, ?_⟩
    dsimp only
    omega
termination_by m + 1 - a
decreasing_by omega

theorem retryLoop_first4xx (f : Nat → Except ApiError α) (m i : Nat) (e : ApiError)
    (hi : i ≤ m)
    (hfail : ∀ n, n < i → ∃ e2, f n = .error e2 ∧ is4xxClientError e2 = false)
    (hie : f i = .error e) (h4 : is4xxClientError e = true)
    (a : Nat) (ha : a ≤ i) :
    (retryLoop f m a).result = .error e ∧
    (retryLoop f m a).attempts = i + 1 - a ∧
    (retryLoop f m a).delays.length = i - a := by
  by_cases hai : a = i
  · subst hai
    rw [retryLoop_err4xx hie h4]
    refine ⟨rfl, ?_, ?_⟩
    · dsimp only
      omega
    · simp
  · have hlt : a < i := lt_of_le_of_ne ha hai
    obtain ⟨e2, hfa, h42⟩ := hfail a hlt
    have hm : ¬ m ≤ a := by omega
    rw [retryLoop_next hfa h42 hm]
    have ih := retryLoop_first4xx f m i e hi hfail hie h4 (a + 1) (by omega)
    refine ⟨ih.1, ?_, ?_⟩
    · dsimp only
      omega
    · dsimp only [List.length_cons]
      omega
termination_by i + 1 - a
decreasing_by omega

/-! ## Claim theorems for the API client -/

/-- C8: `fetchWithRetry` performs at most `maxRetries + 1` request
attempts; the backoff sleep performed before the n-th retry attempt
(the (n-1)-th entry of the delay trace, n ≥ 1) is `2 ^ (n-1)` seconds
(in ms); and when every allowed attempt fails with a retryable error the
loop rethrows the error of the last attempt instead of returning a
value. -/
theorem C8_retry_bounded_backoff_last_error (f : Nat → Except ApiError α)
    (maxRetries : Nat) :
    (fetchWithRetry f maxRetries).attempts ≤ maxRetries + 1 ∧
    (fetchWithRetry f maxRetries).delays =
      (List.range ((fetchWithRetry f maxRetries).attempts - 1)).map
        (fun n => 2 ^ n * 1000) ∧
    ((∀ n, n ≤ maxRetries → ∃ e, f n = .error e ∧ is4xxClientError e = false) →
      (fetchWithRetry f maxRetries).result = f maxRetries ∧
      (fetchWithRetry f maxRetries).attempts = maxRetries + 1) := by
  refine ⟨?_, ?_, ?_⟩
  · have h := retryLoop_attempts_le f maxRetries 0 (Nat.zero_le _)
    simpa [fetchWithRetry] using h
  · have h := retryLoop_delays f maxRetries 0
    simpa [fetchWithRetry] using h
  · intro hfail
    have h := retryLoop_all_fail f maxRetries hfail 0 (Nat.zero_le _)
    simpa [fetchWithRetry] using h

/-- Witness for C8: two retries, every attempt failing with a network
error — three attempts are made and the last error is surfaced. -/
theorem C8_retry_witness :
    (fetchWithRetry
        (fun _ => (Except.error ⟨.network, "down", none⟩ : Except ApiError String))
        2).result = Except.error ⟨.network, "down", none⟩ ∧
    (fetchWithRetry
        (fun _ => (Except.error ⟨.network, "down", none⟩ : Except ApiError String))
        2).attempts = 3 :=
  (C8_retry_bounded_backoff_last_error
      (fun _ => (Except.error ⟨.network, "down", none⟩ : Except ApiError String))
      2).2.2
    (fun _ _ => ⟨⟨.network, "down", none⟩, rfl, rfl⟩)

/-- C9: when an attempt fails with an `ApiError` whose status code is in
[400, 500), `fetchWithRetry` rethrows it at once — exactly `i + 1` attempts
happen, no backoff sleep follows the 4xx failure (the trace holds only the
`i` sleeps that preceded earlier attempts), regardless of the remaining
retry budget. -/
theorem C9_4xx_aborts_retry (f : Nat → Except ApiError α) (maxRetries i : Nat)
    (e : ApiError) (hi : i ≤ maxRetries)
    (hfail : ∀ n, n < i → ∃ e2, f n = .error e2 ∧ is4xxClientError e2 = false)
    (hie : f i = .error e) (h4 : is4xxClientError e = true) :
    (fetchWithRetry f maxRetries).result = .error e ∧
    (fetchWithRetry f maxRetries).attempts = i + 1 ∧
    (fetchWithRetry f maxRetries).delays.length = i := by
  have h := retryLoop_first4xx f maxRetries i e hi hfail hie h4 0 (Nat.zero_le _)
  simpa [fetchWithRetry] using h

/-- Witness for C9: attempt 0 fails with a network error, attempt 1 with an
HTTP 404 — the 404 is rethrown after exactly 2 attempts and 1 sleep, though
4 retries remained in the budget. -/
theorem C9_4xx_witness :
    (fetchWithRetry
        (fun n => if n = 0 then (Except.error ⟨.network, "down", none⟩ : Except ApiError String)
                  else Except.error ⟨.http, "not found", some 404⟩)
        5).result = Except.error ⟨.http, "not found", some 404⟩ ∧
    (fetchWithRetry
        (fun n => if n = 0 then (Except.error ⟨.network, "down", none⟩ : Except ApiError String)
                  else Except.error ⟨.http, "not found", some 404⟩)
        5).attempts = 2 ∧
    (fetchWithRetry
        (fun n => if n = 0 then (Except.error ⟨.network, "down", none⟩ : Except ApiError String)
                  else Except.error ⟨.http, "not found", some 404⟩)
        5).delays.length = 1 :=
  C9_4xx_aborts_retry
    (fun n => if n = 0 then (Except.error ⟨.network, "down", none⟩ : Except ApiError String)
              else Except.error ⟨.http, "not found", some 404⟩)
    5 1 ⟨.http, "not found", some 404⟩ (by omega)
    (fun n hn => by
      interval_cases n
      exact ⟨⟨.network, "down", none⟩, rfl, rfl⟩)
    rfl rfl

/-- C10: a 401 response on a path other than `/token` clears the stored
auth token (reads as `none` afterwards) and throws the session-expired
`ApiError` with status 401; a 401 on `/token` itself leaves the stored
token unchanged and throws an HTTP `ApiError` with status 401. -/
theorem C10_unauthorized_session_reset (resource : String) (resp : HttpResponse)
    (s : ClientState) (h401 : resp.status = 401) :
    (normalizePath resource ≠ "/token" →
      getToken (fetchWithTimeout resource resp s).1 = none ∧
      (fetchWithTimeout resource resp s).2 =
        Except.error ⟨.http, "Session expired. Please log in again.", some 401⟩) ∧
    (normalizePath resource = "/token" →
      (fetchWithTimeout resource resp s).1 = s ∧
      (fetchWithTimeout resource resp s).2 =
        Except.error ⟨.http, errorMessageOf resp, some 401⟩) := by
  constructor
  · intro hp
    simp [fetchWithTimeout, h401, hp, getToken, clearToken]
  · intro hp
    have hok : responseOk 401 = false := by decide
    simp [fetchWithTimeout, h401, hp, hok]

/-- Witness for C10: a 401 on `/documents` clears a stored token; a 401 on
`/token` leaves it in place. -/
theorem C10_witness :
    getToken (fetchWithTimeout "/documents" ⟨401, none, none⟩ ⟨some "tok"⟩).1 = none ∧
    (fetchWithTimeout "/token" ⟨401, none, none⟩ ⟨some "tok"⟩).1 = ⟨some "tok"⟩ := by
  constructor
  · exact ((C10_unauthorized_session_reset "/documents" ⟨401, none, none⟩
      ⟨some "tok"⟩ rfl).1 (by decide)).1
  · exact ((C10_unauthorized_session_reset "/token" ⟨401, none, none⟩
      ⟨some "tok"⟩ rfl).2 (by decide)).1

/-- Counterexample for C2 as stated: at the concrete question
"capital requirements", neither `api.search` nor `api.askChatbot` sends a
`top_k` field — the request body holds the single field `question`. -/
theorem C2_counterexample :
    (searchRequest "capital requirements").bodyFields =
      [("question", "capital requirements")] ∧
    (askChatbotRequest "capital requirements").bodyFields =
      [("question", "capital requirements")] ∧
    ((searchRequest "capital requirements").bodyFields.map Prod.fst).contains
      "top_k" = false ∧
    ((askChatbotRequest "capital requirements").bodyFields.map Prod.fst).contains
      "top_k" = false := by
  refine ⟨rfl, rfl, by decide, by decide⟩

/-- C2 (amended): the caller-facing query methods take only a question
string — `search` POSTs the single-field body `{question}` to `/search`,
`askChatbot` POSTs it to `/chatbot/ask`, neither sends a `top_k` — and the
chat client consumes an ask response of shape `{answer, sources}`, using
`answer` as the message content and `title || url` as each source label. -/
theorem C2_query_boundary_amended (q : String) (r : ChatAskResponse) :
    searchRequest q = ⟨"/search", "POST", [("question", q)]⟩ ∧
    askChatbotRequest q = ⟨"/chatbot/ask", "POST", [("question", q)]⟩ ∧
    ((searchRequest q).bodyFields.map Prod.fst).contains "top_k" = false ∧
    ((askChatbotRequest q).bodyFields.map Prod.fst).contains "top_k" = false ∧
    assistantMessage r = (r.answer, r.sources.map sourceLabel) :=
  ⟨rfl, rfl, by simp [searchRequest], by simp [askChatbotRequest], rfl⟩

/-! ## Claim theorems for the hybrid fusion (C1) -/

theorem foldl_min_le_init (xs : List ℚ) (a : ℚ) : xs.foldl min a ≤ a := by
  induction xs generalizing a with
  | nil => exact le_refl a
  | cons y ys ih => exact le_trans (ih (min a y)) (min_le_left a y)

theorem foldl_min_le_mem (xs : List ℚ) (a x : ℚ) (hx : x ∈ xs) :
    xs.foldl min a ≤ x := by
  induction xs generalizing a with
  | nil => cases hx
  | cons y ys ih =>
    rcases List.mem_cons.mp hx with h | h
    · subst h
      exact le_trans (foldl_min_le_init ys (min a x)) (min_le_right a x)
    · exact ih (min a y) h

theorem listMin_le (l : List ℚ) (x : ℚ) (hx : x ∈ l) : listMin l ≤ x := by
  cases l with
  | nil => cases hx
  | cons y ys =>
    rcases List.mem_cons.mp hx with h | h
    · subst h
      exact foldl_min_le_init ys x
    · exact foldl_min_le_mem ys y x h

theorem init_le_foldl_max (xs : List ℚ) (a : ℚ) : a ≤ xs.foldl max a := by
  induction xs generalizing a with
  | nil => exact le_refl a
  | cons y ys ih => exact le_trans (le_max_left a y) (ih (max a y))

theorem mem_le_foldl_max (xs : List ℚ) (a x : ℚ) (hx : x ∈ xs) :
    x ≤ xs.foldl max a := by
  induction xs generalizing a with
  | nil => cases hx
  | cons y ys ih =>
    rcases List.mem_cons.mp hx with h | h
    · subst h
      exact le_trans (le_max_right a x) (init_le_foldl_max ys (max a x))
    · exact ih (max a y) h

theorem le_listMax (l : List ℚ) (x : ℚ) (hx : x ∈ l) : x ≤ listMax l := by
  cases l with
  | nil => cases hx
  | cons y ys =>
    rcases List.mem_cons.mp hx with h | h
    · subst h
      exact init_le_foldl_max ys x
    · exact mem_le_foldl_max ys y x h

theorem lookupScore_mem_scores {rs : List BranchResult} {c : String} {x : ℚ}
    (h : lookupScore rs c = some x) : x ∈ scoresOf rs := by
  unfold lookupScore at h
  rcases Option.map_eq_some'.mp h with ⟨r, hr, hx⟩
  subst hx
  exact List.mem_map_of_mem _ (List.mem_of_find?_eq_some hr)

theorem branchNorm_nonneg (rs : List BranchResult) (c : String) :
    0 ≤ branchNorm rs c := by
  unfold branchNorm
  cases hx : lookupScore rs c with
  | none => exact le_refl 0
  | some x =>
    have hxm := lookupScore_mem_scores hx
    unfold minMaxNorm
    dsimp only
    split
    · exact zero_le_one
    · have h1 : listMin (scoresOf rs) ≤ x := listMin_le _ _ hxm
      have h2 : x ≤ listMax (scoresOf rs) := le_listMax _ _ hxm
      apply div_nonneg <;> linarith

/-- Counterexample for C1 as stated: with dense results a:2, b:1 and
lexical results a:1, b:2, candidate a sits in both result sets with
normalized dense score 1 and normalized lexical score 0, yet its fused
score under the default weighting is 7/10 < 1 — the fused score is NOT ≥
each individual normalized branch score. -/
theorem C1_counterexample :
    (fuseCandidates defaultDenseWeight [⟨"a", 2⟩, ⟨"b", 1⟩]
        [⟨"a", 1⟩, ⟨"b", 2⟩]).head? = some ⟨"a", 1, 0, 7 / 10⟩ ∧
    lookupScore [(⟨"a", 2⟩ : BranchResult), ⟨"b", 1⟩] "a" = some 2 ∧
    lookupScore [(⟨"a", 1⟩ : BranchResult), ⟨"b", 2⟩] "a" = some 1 ∧
    ¬ ((1 : ℚ) ≤ 7 / 10) := by
  refine ⟨?_, rfl, rfl, by norm_num⟩
  have hids : candidateIds [⟨"a", 2⟩, ⟨"b", 1⟩] [⟨"a", 1⟩, ⟨"b", 2⟩] = ["a", "b"] := by
    simp [candidateIds, List.eraseDups, List.eraseDups.loop, List.elem,
      String.reduceBEq]
  norm_num [fuseCandidates, hids, branchNorm, lookupScore, minMaxNorm,
    scoresOf, listMin, listMax, defaultDenseWeight, List.find?]

/-- C1 (amended): under any non-negative weighting `0 ≤ w ≤ 1` (the default
7/10 included), a candidate appearing in both branch result sets has a
fused score at least as large as the weighted contribution of each branch —
the fused score the candidate would have received from either branch alone,
with the missing branch defaulted to 0: `w * denseNorm ≤ fused` and
`(1 - w) * lexNorm ≤ fused`. -/
theorem C1_fused_ge_each_branch_contribution (w : ℚ) (dense lex : List BranchResult)
    (c : FusedCandidate) (hw0 : 0 ≤ w) (hw1 : w ≤ 1)
    (hc : c ∈ fuseCandidates w dense lex)
    (hd : lookupScore dense c.chunkId ≠ none)
    (hl : lookupScore lex c.chunkId ≠ none) :
    w * c.denseNorm ≤ c.fusedScore ∧ (1 - w) * c.lexNorm ≤ c.fusedScore := by
  obtain ⟨id, hid, rfl⟩ := List.mem_map.mp hc
  have hdn := branchNorm_nonneg dense id
  have hln := branchNorm_nonneg lex id
  have hwd : 0 ≤ w * branchNorm dense id := mul_nonneg hw0 hdn
  have hwl : 0 ≤ (1 - w) * branchNorm lex id := mul_nonneg (by linarith) hln
  dsimp only
  constructor <;> linarith

/-- Witness for C1: weight 1, both branches returning the single candidate
a — the hypotheses hold and the fused score dominates both weighted branch
contributions. -/
theorem C1_fusion_witness :
    (0 : ℚ) ≤ 1 ∧ (1 : ℚ) ≤ 1 ∧
    (⟨"a", 1, 1, 1 * 1 + (1 - 1) * 1⟩ : FusedCandidate) ∈
      fuseCandidates 1 [⟨"a", 0⟩] [⟨"a", 0⟩] ∧
    lookupScore [(⟨"a", (0 : ℚ)⟩ : BranchResult)] "a" ≠ none ∧
    1 * (1 : ℚ) ≤ 1 * 1 + (1 - 1) * 1 ∧
    (1 - 1) * (1 : ℚ) ≤ 1 * 1 + (1 - 1) * 1 := by
  have hmem : (⟨"a", 1, 1, 1 * 1 + (1 - 1) * 1⟩ : FusedCandidate) ∈
      fuseCandidates 1 [⟨"a", 0⟩] [⟨"a", 0⟩] := by
    simp [fuseCandidates, candidateIds, branchNorm, lookupScore, minMaxNorm,
      scoresOf, listMin, listMax, List.eraseDups, List.eraseDups.loop,
      List.elem, String.reduceBEq, List.find?]
  have hne : lookupScore [(⟨"a", (0 : ℚ)⟩ : BranchResult)] "a" ≠ none := by
    simp [lookupScore, List.find?]
  have h := C1_fused_ge_each_branch_contribution 1 [⟨"a", 0⟩] [⟨"a", 0⟩]
    ⟨"a", 1, 1, 1 * 1 + (1 - 1) * 1⟩ zero_le_one (le_refl 1) hmem hne hne
  exact ⟨zero_le_one, le_refl 1, hmem, hne, h.1, h.2⟩

/-! ## Claim theorems for the chunker (C3) -/

theorem chunkTokens_ne_nil (maxTokens overlap : Nat) (toks : List String) :
    chunkTokens maxTokens overlap toks ≠ [] := by
  rw [chunkTokens]
  split <;> simp

theorem chunkTokens_length_le (maxTokens overlap : Nat) (toks : List String) :
    ∀ c ∈ chunkTokens maxTokens overlap toks, c.length ≤ maxTokens := by
  intro c hc
  rw [chunkTokens] at hc
  split at hc
  · next h =>
    rw [List.mem_singleton] at hc
    subst hc
    exact h
  · next h =>
    rcases List.mem_cons.mp hc with h1 | h1
    · subst h1
      simp
    · exact chunkTokens_length_le maxTokens overlap _ c h1
termination_by toks.length
decreasing_by
  simp only [List.length_drop]
  omega

theorem reconstruct_chunkTokens (maxTokens overlap : Nat) (toks : List String)
    (hov : overlap < maxTokens) :
    reconstruct (maxTokens - overlap) (chunkTokens maxTokens overlap toks) = toks := by
  rw [chunkTokens]
  split
  · rfl
  · next h =>
    have hs : max 1 (maxTokens - overlap) = maxTokens - overlap := by omega
    rw [hs]
    have hne := chunkTokens_ne_nil maxTokens overlap
      (toks.drop (maxTokens - overlap))
    obtain ⟨r, rs, hr⟩ : ∃ r rs,
        chunkTokens maxTokens overlap (toks.drop (maxTokens - overlap)) = r :: rs := by
      cases hcc : chunkTokens maxTokens overlap (toks.drop (maxTokens - overlap)) with
      | nil => exact absurd hcc hne
      | cons r rs => exact ⟨r, rs, rfl⟩
    rw [hr]
    have ih := reconstruct_chunkTokens maxTokens overlap
      (toks.drop (maxTokens - overlap)) hov
    rw [hr] at ih
    simp only [reconstruct]
    rw [ih, List.take_take]
    have hmin : min (maxTokens - overlap) maxTokens = maxTokens - overlap := by
      omega
    rw [hmin, List.take_append_drop]
termination_by toks.length
decreasing_by
  simp only [List.length_drop]
  omega

/-- C3: on every non-empty document (with a valid configuration
`overlap < max_tokens`), the chunker succeeds and produces a non-empty
ordered chunk sequence in which no chunk exceeds `max_tokens` and whose
non-overlapping spans concatenate back to the exact source token
sequence (full gap-free coverage). -/
theorem C3_chunker_covers_document (maxTokens overlap : Nat) (toks : List String)
    (hov : overlap < maxTokens) (hne : toks ≠ []) :
    chunkDocument maxTokens overlap toks = .ok (chunkTokens maxTokens overlap toks) ∧
    chunkTokens maxTokens overlap toks ≠ [] ∧
    (∀ c ∈ chunkTokens maxTokens overlap toks, c.length ≤ maxTokens) ∧
    reconstruct (maxTokens - overlap) (chunkTokens maxTokens overlap toks) = toks := by
  refine ⟨?_, chunkTokens_ne_nil _ _ _, chunkTokens_length_le _ _ _,
    reconstruct_chunkTokens _ _ _ hov⟩
  simp [chunkDocument, hne]

/-- Witness for C3: the §8 example — a 40-token document with
max_tokens 30, overlap 5 is accepted and chunked with full coverage. -/
theorem C3_chunker_witness :
    5 < 30 ∧ List.replicate 40 "tok" ≠ ([] : List String) ∧
    (chunkDocument 30 5 (List.replicate 40 "tok") =
        .ok (chunkTokens 30 5 (List.replicate 40 "tok")) ∧
      chunkTokens 30 5 (List.replicate 40 "tok") ≠ [] ∧
      (∀ c ∈ chunkTokens 30 5 (List.replicate 40 "tok"), c.length ≤ 30) ∧
      reconstruct (30 - 5) (chunkTokens 30 5 (List.replicate 40 "tok")) =
        List.replicate 40 "tok") :=
  ⟨by omega, by simp,
   C3_chunker_covers_document 30 5 (List.replicate 40 "tok") (by omega) (by simp)⟩

/-! ## Claim theorems for the vector index (C5) -/

theorem lookupVec_cons (e : String × List ℚ) (l : List (String × List ℚ))
    (c2 : String) :
    lookupVec (e :: l) c2 = if e.1 = c2 then some e.2 else lookupVec l c2 := by
  by_cases h : e.1 = c2 <;> simp [lookupVec, List.find?_cons, h]

theorem lookupVec_upsert (c : String) (v : List ℚ)
    (m : List (String × List ℚ)) (c2 : String) :
    lookupVec (upsert c v m) c2 = if c2 = c then some v else lookupVec m c2 := by
  induction m with
  | nil =>
    rw [upsert, lookupVec_cons]
    by_cases h : c2 = c
    · simp [h, lookupVec]
    · simp [h, Ne.symm h, lookupVec]
  | cons e rest ih =>
    rw [upsert]
    by_cases he : e.1 = c
    · rw [if_pos he, lookupVec_cons, lookupVec_cons]
      by_cases h : c2 = c
      · simp [h]
      · simp [h, Ne.symm h, he]
    · rw [if_neg he, lookupVec_cons, lookupVec_cons, ih]
      by_cases h2 : e.1 = c2
      · have hcc : ¬ c2 = c := fun hh => he (h2.trans hh)
        simp [h2, hcc]
      · simp [h2]

theorem upsert_length_of_present (c : String) (v : List ℚ)
    (m : List (String × List ℚ)) (h : (lookupVec m c).isSome) :
    (upsert c v m).length = m.length := by
  induction m with
  | nil => simp [lookupVec, List.find?] at h
  | cons e rest ih =>
    rw [upsert]
    by_cases he : e.1 = c
    · simp [he]
    · rw [if_neg he]
      rw [lookupVec_cons, if_neg he] at h
      simp [ih h]

theorem lookupVec_insertAll (es : List (String × List ℚ))
    (m : List (String × List ℚ)) (c : String) :
    lookupVec (insertAll es m) c =
      match lastBinding c es with
      | some v => some v
      | none => lookupVec m c := by
  induction es generalizing m with
  | nil => rfl
  | cons e rest ih =>
    show lookupVec (insertAll rest (upsert e.1 e.2 m)) c = _
    rw [ih]
    cases hlb : lastBinding c rest with
    | some v => simp [lastBinding, hlb]
    | none =>
      rw [lookupVec_upsert, lastBinding, hlb]
      by_cases h : c = e.1
      · subst h
        simp
      · simp [h, Ne.symm h]

theorem lastBinding_isSome_of_mem (es : List (String × List ℚ))
    (e : String × List ℚ) (he : e ∈ es) : (lastBinding e.1 es).isSome := by
  induction es with
  | nil => cases he
  | cons x rest ih =>
    rw [lastBinding]
    rcases List.mem_cons.mp he with h | h
    · subst h
      cases hlb : lastBinding e.1 rest with
      | some v => simp
      | none => simp
    · cases hlb : lastBinding e.1 rest with
      | some v => simp
      | none =>
        have := ih h
        rw [hlb] at this
        simp at this

theorem lookupVec_isSome_after_insertAll (es : List (String × List ℚ))
    (m : List (String × List ℚ)) (e : String × List ℚ) (he : e ∈ es) :
    (lookupVec (insertAll es m) e.1).isSome := by
  rw [lookupVec_insertAll]
  have := lastBinding_isSome_of_mem es e he
  cases hlb : lastBinding e.1 es with
  | some v => simp
  | none =>
    rw [hlb] at this
    simp at this

theorem insertAll_length_of_present (es : List (String × List ℚ))
    (m : List (String × List ℚ))
    (h : ∀ e ∈ es, (lookupVec m e.1).isSome) :
    (insertAll es m).length = m.length := by
  induction es generalizing m with
  | nil => rfl
  | cons e rest ih =>
    show (insertAll rest (upsert e.1 e.2 m)).length = m.length
    rw [ih]
    · exact upsert_length_of_present e.1 e.2 m (h e (List.mem_cons_self e rest))
    · intro x hx
      rw [lookupVec_upsert]
      by_cases hxe : x.1 = e.1
      · simp [hxe]
      · rw [if_neg hxe]
        exact h x (List.mem_cons_of_mem e hx)

/-- C5: insert of a duplicate chunk_id is an upsert — the new vector
replaces the old entry and the index does not grow — and ingesting the same
document twice leaves the vector index unchanged in content (every lookup)
and in size. -/
theorem C5_ingestion_idempotent_upsert (c : String) (v w : List ℚ)
    (m : List (String × List ℚ)) (embed : List String → List ℚ)
    (maxTokens overlap : Nat) (docId : String) (toks : List String)
    (idx : List (String × List ℚ)) :
    lookupVec (upsert c v (upsert c w m)) c = some v ∧
    (upsert c v (upsert c w m)).length = (upsert c w m).length ∧
    (∀ c2, lookupVec (ingestDocument embed maxTokens overlap docId toks
        (ingestDocument embed maxTokens overlap docId toks idx)) c2 =
      lookupVec (ingestDocument embed maxTokens overlap docId toks idx) c2) ∧
    (ingestDocument embed maxTokens overlap docId toks
        (ingestDocument embed maxTokens overlap docId toks idx)).length =
      (ingestDocument embed maxTokens overlap docId toks idx).length := by
  refine ⟨?_, ?_, ?_, ?_⟩
  · rw [lookupVec_upsert]
    simp
  · apply upsert_length_of_present
    rw [lookupVec_upsert]
    simp
  · intro c2
    unfold ingestDocument
    rw [lookupVec_insertAll, lookupVec_insertAll]
    cases hlb : lastBinding c2
        (chunkEntries embed docId (chunkTokens maxTokens overlap toks)) <;>
      simp
  · unfold ingestDocument
    apply insertAll_length_of_present
    intro e he
    exact lookupVec_isSome_after_insertAll _ idx e he

/-! ## Claim theorems for the consistency invariant (C4) -/

theorem lookupRow_cons (e : String × MetaRow) (l : List (String × MetaRow))
    (c2 : String) :
    lookupRow (e :: l) c2 = if e.1 = c2 then some e.2 else lookupRow l c2 := by
  by_cases h : e.1 = c2 <;> simp [lookupRow, List.find?_cons, h]

theorem lookupRow_setStatus (rows : List (String × MetaRow)) (c : String)
    (st : ChunkStatus) (c2 : String) :
    lookupRow (setStatus rows c st) c2 =
      if c2 = c then (lookupRow rows c).map (fun row => ⟨row.docId, st⟩)
      else lookupRow rows c2 := by
  induction rows with
  | nil => by_cases h : c2 = c <;> simp [setStatus, lookupRow, List.find?, h]
  | cons e rest ih =>
    show lookupRow
        ((if e.1 = c then (e.1, ⟨e.2.docId, st⟩) else e) :: setStatus rest c st) c2 =
      if c2 = c then (lookupRow (e :: rest) c).map (fun row => ⟨row.docId, st⟩)
      else lookupRow (e :: rest) c2
    by_cases h2 : c2 = c
    · subst h2
      by_cases he : e.1 = c2 <;> simp [he, lookupRow_cons, ih]
    · by_cases he : e.1 = c
      · have hcc : ¬ c = c2 := fun hh => h2 hh.symm
        simp [he, h2, hcc, lookupRow_cons, ih]
      · by_cases he2 : e.1 = c2 <;> simp [he, h2, he2, lookupRow_cons, ih]

theorem step_preserves_deleted {s t : CoreState} (hst : Step s t) (c : String)
    (h : statusOf s c = some .deleted) : statusOf t c = some .deleted := by
  cases hst with
  | writeMetaPending c0 doc h0 =>
    unfold statusOf at h ⊢
    dsimp only
    rw [lookupRow_cons]
    dsimp only
    by_cases hc : c0 = c
    · subst hc
      rw [h0] at h
      simp at h
    · rw [if_neg hc]
      exact h
  | insertVec c0 h0 => exact h
  | insertLex c0 h0 => exact h
  | markIndexed c0 h0 hv hl =>
    unfold statusOf at h h0 ⊢
    dsimp only
    rw [lookupRow_setStatus]
    by_cases hc : c = c0
    · subst hc
      rw [h] at h0
      simp at h0
    · rw [if_neg hc]
      exact h
  | markDeleted c0 row h0 =>
    unfold statusOf at h ⊢
    dsimp only
    rw [lookupRow_setStatus]
    by_cases hc : c = c0
    · subst hc
      rw [h0]
      simp
    · rw [if_neg hc]
      exact h
  | purgeVec c0 h0 => exact h
  | purgeLex c0 h0 => exact h

theorem reachableFrom_deleted {s t : CoreState} (h : ReachableFrom s t)
    (c : String) (hdel : statusOf s c = some .deleted) :
    statusOf t c = some .deleted := by
  induction h with
  | refl => exact hdel
  | step hrt hst ih => exact step_preserves_deleted hst c ih

theorem step_preserves_invariant {s t : CoreState} (hst : Step s t)
    (h1 : ∀ c row, lookupRow s.store c = some row → row.status = .indexed →
      c ∈ s.vec ∧ c ∈ s.lex)
    (h2 : ∀ c, lookupRow s.store c = none → c ∉ s.vec ∧ c ∉ s.lex) :
    (∀ c row, lookupRow t.store c = some row → row.status = .indexed →
      c ∈ t.vec ∧ c ∈ t.lex) ∧
    (∀ c, lookupRow t.store c = none → c ∉ t.vec ∧ c ∉ t.lex) := by
  cases hst with
  | writeMetaPending c0 doc h0 =>
    constructor
    · intro c row hc hrow
      dsimp only at hc ⊢
      rw [lookupRow_cons] at hc
      dsimp only at hc
      by_cases he : c0 = c
      · rw [if_pos he] at hc
        cases hc
        simp at hrow
      · rw [if_neg he] at hc
        exact h1 c row hc hrow
    · intro c hc
      dsimp only at hc ⊢
      rw [lookupRow_cons] at hc
      dsimp only at hc
      by_cases he : c0 = c
      · rw [if_pos he] at hc
        cases hc
      · rw [if_neg he] at hc
        exact h2 c hc
  | insertVec c0 h0 =>
    constructor
    · intro c row hc hrow
      dsimp only at hc ⊢
      have hm := h1 c row hc hrow
      exact ⟨List.mem_cons_of_mem _ hm.1, hm.2⟩
    · intro c hc
      dsimp only at hc ⊢
      have hne : ¬ c = c0 := by
        intro he
        subst he
        unfold statusOf at h0
        rw [hc] at h0
        simp at h0
      have hm := h2 c hc
      refine ⟨?_, hm.2⟩
      simp only [List.mem_cons, not_or]
      exact ⟨hne, hm.1⟩
  | insertLex c0 h0 =>
    constructor
    · intro c row hc hrow
      dsimp only at hc ⊢
      have hm := h1 c row hc hrow
      exact ⟨hm.1, List.mem_cons_of_mem _ hm.2⟩
    · intro c hc
      dsimp only at hc ⊢
      have hne : ¬ c = c0 := by
        intro he
        subst he
        unfold statusOf at h0
        rw [hc] at h0
        simp at h0
      have hm := h2 c hc
      refine ⟨hm.1, ?_⟩
      simp only [List.mem_cons, not_or]
      exact ⟨hne, hm.2⟩
  | markIndexed c0 h0 hv hl =>
    constructor
    · intro c row hc hrow
      dsimp only at hc ⊢
      by_cases he : c = c0
      · subst he
        exact ⟨hv, hl⟩
      · rw [lookupRow_setStatus, if_neg he] at hc
        exact h1 c row hc hrow
    · intro c hc
      dsimp only at hc ⊢
      rw [lookupRow_setStatus] at hc
      by_cases he : c = c0
      · rw [if_pos he] at hc
        have hnone : lookupRow s.store c0 = none := by
          cases hl0 : lookupRow s.store c0 with
          | none => rfl
          | some r =>
            rw [hl0] at hc
            simp at hc
        subst he
        exact h2 c hnone
      · rw [if_neg he] at hc
        exact h2 c hc
  | markDeleted c0 row0 h0 =>
    constructor
    · intro c row hc hrow
      dsimp only at hc ⊢
      rw [lookupRow_setStatus] at hc
      by_cases he : c = c0
      · rw [if_pos he] at hc
        cases hl0 : lookupRow s.store c0 with
        | none =>
          rw [hl0] at hc
          simp at hc
        | some r =>
          rw [hl0] at hc
          simp only [Option.map_some'] at hc
          cases hc
          exact ChunkStatus.noConfusion hrow
      · rw [if_neg he] at hc
        exact h1 c row hc hrow
    · intro c hc
      dsimp only at hc ⊢
      rw [lookupRow_setStatus] at hc
      by_cases he : c = c0
      · rw [if_pos he] at hc
        have hnone : lookupRow s.store c0 = none := by
          cases hl0 : lookupRow s.store c0 with
          | none => rfl
          | some r =>
            rw [hl0] at hc
            simp at hc
        subst he
        exact h2 c hnone
      · rw [if_neg he] at hc
        exact h2 c hc
  | purgeVec c0 h0 =>
    constructor
    · intro c row hc hrow
      dsimp only at hc ⊢
      have hm := h1 c row hc hrow
      have hne : c ≠ c0 := by
        intro he
        subst he
        unfold statusOf at h0
        rw [hc] at h0
        simp only [Option.map_some', Option.some.injEq] at h0
        rw [hrow] at h0
        exact ChunkStatus.noConfusion h0
      exact ⟨(List.mem_erase_of_ne hne).mpr hm.1, hm.2⟩
    · intro c hc
      dsimp only at hc ⊢
      have hm := h2 c hc
      exact ⟨fun hmem => hm.1 (List.mem_of_mem_erase hmem), hm.2⟩
  | purgeLex c0 h0 =>
    constructor
    · intro c row hc hrow
      dsimp only at hc ⊢
      have hm := h1 c row hc hrow
      have hne : c ≠ c0 := by
        intro he
        subst he
        unfold statusOf at h0
        rw [hc] at h0
        simp only [Option.map_some', Option.some.injEq] at h0
        rw [hrow] at h0
        exact ChunkStatus.noConfusion h0
      exact ⟨hm.1, (List.mem_erase_of_ne hne).mpr hm.2⟩
    · intro c hc
      dsimp only at hc ⊢
      have hm := h2 c hc
      exact ⟨hm.1, fun hmem => hm.2 (List.mem_of_mem_erase hmem)⟩

theorem reachable_invariant (s : CoreState) (hs : Reachable s) :
    (∀ c row, lookupRow s.store c = some row → row.status = .indexed →
      c ∈ s.vec ∧ c ∈ s.lex) ∧
    (∀ c, lookupRow s.store c = none → c ∉ s.vec ∧ c ∉ s.lex) := by
  induction hs with
  | init =>
    constructor
    · intro c row hc hrow
      simp [initState, lookupRow, List.find?] at hc
    · intro c hc
      simp [initState]
  | step hr hst ih => exact step_preserves_invariant hst ih.1 ih.2

/-- Counterexample for C4 as stated: the state reached after the first
ingestion write of chunk c1 (its Metadata Store row written with state
`pending`) is reachable, the row is present with `deleted=false`, yet c1 is
in neither index — the literal every-reachable-state invariant fails in the
§5 write-ordering window. -/
theorem C4_counterexample :
    Reachable ⟨[("c1", ⟨"d1", .pending⟩)], [], []⟩ ∧
    ¬ literalInvariant ⟨[("c1", ⟨"d1", .pending⟩)], [], []⟩ := by
  constructor
  · exact Reachable.step Reachable.init
      (Step.writeMetaPending initState "c1" "d1" rfl)
  · intro h
    have hm := h.1 "c1" ⟨"d1", .pending⟩ (by simp [lookupRow, List.find?])
      (by simp)
    exact List.not_mem_nil "c1" hm.1

/-- C4 (amended): in every reachable state of the retrieval core, a
chunk_id whose Metadata Store row is in state `indexed` is present in both
indexes, and a chunk_id absent from the Metadata Store is absent from both
indexes (a `pending` row may precede its index writes per the §5 ordering);
and once `delete(document_id)` has completed — every row of the document
tombstoned — no search call in that state or in any later reachable state
(queries concurrent with the ongoing index purge included) returns any
chunk of that document. -/
theorem C4_consistency_invariant (s : CoreState) (hs : Reachable s) :
    (∀ c row, lookupRow s.store c = some row → row.status = .indexed →
      c ∈ s.vec ∧ c ∈ s.lex) ∧
    (∀ c, lookupRow s.store c = none → c ∉ s.vec ∧ c ∉ s.lex) ∧
    (∀ d, docDeleted s d → ∀ t, ReachableFrom s t → ∀ c row,
      lookupRow s.store c = some row → row.docId = d →
      searchVisible t c = false) := by
  obtain ⟨h1, h2⟩ := reachable_invariant s hs
  refine ⟨h1, h2, ?_⟩
  intro d hd t hrt c row hc hdoc
  have hdel : statusOf s c = some .deleted := by
    unfold statusOf
    rw [hc]
    simp [hd c row hc hdoc]
  have hdelt := reachableFrom_deleted hrt c hdel
  simp [searchVisible, hdelt]

/-- Witness for C4: the initial (empty) core state is reachable and
satisfies the amended invariant. -/
theorem C4_invariant_witness :
    Reachable initState ∧
    ((∀ c row, lookupRow initState.store c = some row → row.status = .indexed →
        c ∈ initState.vec ∧ c ∈ initState.lex) ∧
      (∀ c, lookupRow initState.store c = none →
        c ∉ initState.vec ∧ c ∉ initState.lex) ∧
      (∀ d, docDeleted initState d → ∀ t, ReachableFrom initState t → ∀ c row,
        lookupRow initState.store c = some row → row.docId = d →
        searchVisible t c = false)) :=
  ⟨Reachable.init, C4_consistency_invariant initState Reachable.init⟩

/-! ## Claim theorems for the ASK pipeline (C6, C7) -/

theorem packContext_foldl_spec (budget : Nat) (l : List RankedPassage)
    (acc : List RankedPassage × Nat)
    (hsum : acc.2 = (acc.1.map passageTokens).sum) (hle : acc.2 ≤ budget) :
    (l.foldl (fun acc p => if acc.2 + passageTokens p ≤ budget
        then (acc.1 ++ [p], acc.2 + passageTokens p) else acc) acc).2 =
      ((l.foldl (fun acc p => if acc.2 + passageTokens p ≤ budget
        then (acc.1 ++ [p], acc.2 + passageTokens p) else acc) acc).1.map
          passageTokens).sum ∧
    (l.foldl (fun acc p => if acc.2 + passageTokens p ≤ budget
        then (acc.1 ++ [p], acc.2 + passageTokens p) else acc) acc).2 ≤ budget ∧
    ∀ p ∈ (l.foldl (fun acc p => if acc.2 + passageTokens p ≤ budget
        then (acc.1 ++ [p], acc.2 + passageTokens p) else acc) acc).1,
      p ∈ acc.1 ∨ p ∈ l := by
  induction l generalizing acc with
  | nil =>
    refine ⟨hsum, hle, ?_⟩
    intro p hp
    exact Or.inl hp
  | cons x xs ih =>
    rw [List.foldl_cons]
    by_cases hx : acc.2 + passageTokens x ≤ budget
    · rw [if_pos hx]
      have hsum2 : (acc.1 ++ [x], acc.2 + passageTokens x).2 =
          (((acc.1 ++ [x], acc.2 + passageTokens x).1.map passageTokens).sum) := by
        simp [hsum]
      have h := ih (acc.1 ++ [x], acc.2 + passageTokens x) hsum2 hx
      refine ⟨h.1, h.2.1, ?_⟩
      intro p hp
      rcases h.2.2 p hp with hm | hm
      · rcases List.mem_append.mp hm with hm2 | hm2
        · exact Or.inl hm2
        · rw [List.mem_singleton] at hm2
          exact Or.inr (hm2 ▸ List.mem_cons_self x xs)
      · exact Or.inr (List.mem_cons_of_mem x hm)
    · rw [if_neg hx]
      have h := ih acc hsum hle
      refine ⟨h.1, h.2.1, ?_⟩
      intro p hp
      rcases h.2.2 p hp with hm | hm
      · exact Or.inl hm
      · exact Or.inr (List.mem_cons_of_mem x hm)

theorem packContext_spec (budget : Nat) (l : List RankedPassage) :
    (packContext budget l).2 = ((packContext budget l).1.map passageTokens).sum ∧
    (packContext budget l).2 ≤ budget ∧
    ∀ p ∈ (packContext budget l).1, p ∈ l := by
  have h := packContext_foldl_spec budget l ([], 0) (by simp) (by simp)
  refine ⟨h.1, h.2.1, ?_⟩
  intro p hp
  rcases h.2.2 p hp with hm | hm
  · cases hm
  · exact hm

/-- C6: with the Reranker Gateway forced unavailable, `ask()` still
succeeds (whenever at least one passage fits the context budget, per
§4.6), returns the passages in fusion-score order unmodified, and sets
`reranked=false` in the response — for every generation gateway. -/
theorem C6_rerank_unavailable_degrades
    (genG : String → List RankedPassage → GatewayResult String)
    (budget : Nat) (q : String) (fused : List RankedPassage)
    (hfit : (packContext budget fused).1 ≠ []) :
    askPipeline (fun _ _ => .unavailable) genG budget q fused ≠
      .error .contextOverflow ∧
    ∀ r, askPipeline (fun _ _ => .unavailable) genG budget q fused = .ok r →
      r.passages = fused ∧ r.reranked = false := by
  have hstage : rerankStage (fun _ _ => GatewayResult.unavailable) q fused =
      (fused, false) := rfl
  simp only [askPipeline, hstage]
  rw [if_neg (by simp [List.isEmpty_iff, hfit])]
  cases hg : genG q (packContext budget fused).1 with
  | ok ans =>
    constructor
    · simp
    · intro r hr
      cases hr
      exact ⟨rfl, rfl⟩
  | unavailable =>
    constructor
    · simp
    · intro r hr
      cases hr
      exact ⟨rfl, rfl⟩

/-- Witness for C6: a one-passage corpus, budget 1 — ask succeeds with the
fused list unmodified and reranked=false. -/
theorem C6_rerank_witness :
    ((packContext 1 [⟨"c1", "d1", ["t"], 0⟩]).1 ≠ []) ∧
    (askPipeline (fun _ _ => .unavailable) (fun _ _ => .unavailable) 1 "q"
        [⟨"c1", "d1", ["t"], 0⟩] ≠ .error .contextOverflow ∧
      ∀ r, askPipeline (fun _ _ => .unavailable) (fun _ _ => .unavailable) 1 "q"
          [⟨"c1", "d1", ["t"], 0⟩] = .ok r →
        r.passages = [⟨"c1", "d1", ["t"], 0⟩] ∧ r.reranked = false) :=
  ⟨by decide,
   C6_rerank_unavailable_degrades (fun _ _ => .unavailable) 1 "q"
     [⟨"c1", "d1", ["t"], 0⟩] (by decide)⟩

/-- C7: every successful ask response carries exactly one citation per
passage actually packed into the token budget: the citations are the image
of the packed passages, the packed passages' total token count respects the
budget, and every citation originates from a packed passage — a retrieved
passage excluded for space is never cited. -/
theorem C7_citations_subset_of_packed
    (rerankG : String → List RankedPassage → GatewayResult (List ℚ))
    (genG : String → List RankedPassage → GatewayResult String)
    (budget : Nat) (q : String) (fused : List RankedPassage) (r : AskResult)
    (hok : askPipeline rerankG genG budget q fused = .ok r) :
    r.citations =
      (packContext budget (rerankStage rerankG q fused).1).1.map mkCitation ∧
    ((packContext budget (rerankStage rerankG q fused).1).1.map
        passageTokens).sum ≤ budget ∧
    (∀ cit ∈ r.citations,
      ∃ p, p ∈ (packContext budget (rerankStage rerankG q fused).1).1 ∧
        p ∈ (rerankStage rerankG q fused).1 ∧ cit = mkCitation p) := by
  have hspec := packContext_spec budget (rerankStage rerankG q fused).1
  have hcit : r.citations =
      (packContext budget (rerankStage rerankG q fused).1).1.map mkCitation := by
    simp only [askPipeline] at hok
    by_cases hemp : (packContext budget (rerankStage rerankG q fused).1).1.isEmpty
    · rw [if_pos hemp] at hok
      cases hok
    · rw [if_neg hemp] at hok
      cases hg : genG q (packContext budget (rerankStage rerankG q fused).1).1 with
      | ok ans =>
        rw [hg] at hok
        cases hok
        rfl
      | unavailable =>
        rw [hg] at hok
        cases hok
        rfl
  refine ⟨hcit, ?_, ?_⟩
  · rw [← hspec.1]
    exact hspec.2.1
  · intro cit hcitm
    rw [hcit] at hcitm
    rcases List.mem_map.mp hcitm with ⟨p, hp, hpc⟩
    exact ⟨p, hp, hspec.2.2 p hp, hpc.symm⟩

/-- Witness for C7: a concrete successful ask run — one passage packed, one
citation attached, budget respected. -/
theorem C7_citations_witness :
    askPipeline (fun _ _ => .unavailable) (fun _ _ => .ok "ans") 1 "q"
        [⟨"c1", "d1", ["t"], 0⟩] =
      .ok ⟨some "ans", [⟨"c1", "d1", ["t"], 0⟩], [⟨"c1", "d1"⟩], false, true⟩ ∧
    ((AskResult.mk (some "ans") [⟨"c1", "d1", ["t"], 0⟩] [⟨"c1", "d1"⟩]
        false true).citations =
      (packContext 1 (rerankStage (fun _ _ => .unavailable) "q"
        [⟨"c1", "d1", ["t"], 0⟩]).1).1.map mkCitation ∧
    ((packContext 1 (rerankStage (fun _ _ => .unavailable) "q"
        [⟨"c1", "d1", ["t"], 0⟩]).1).1.map passageTokens).sum ≤ 1 ∧
    (∀ cit ∈ (AskResult.mk (some "ans") [⟨"c1", "d1", ["t"], 0⟩]
        [⟨"c1", "d1"⟩] false true).citations,
      ∃ p, p ∈ (packContext 1 (rerankStage (fun _ _ => .unavailable) "q"
          [⟨"c1", "d1", ["t"], 0⟩]).1).1 ∧
        p ∈ (rerankStage (fun _ _ => .unavailable) "q"
          [⟨"c1", "d1", ["t"], 0⟩]).1 ∧ cit = mkCitation p)) :=
  ⟨rfl,
   C7_citations_subset_of_packed (fun _ _ => .unavailable)
     (fun _ _ => .ok "ans") 1 "q" [⟨"c1", "d1", ["t"], 0⟩]
     ⟨some "ans", [⟨"c1", "d1", ["t"], 0⟩], [⟨"c1", "d1"⟩], false, true⟩
     rfl⟩

end CihVeille
